import Mathlib

/-!
Verification development for the wzprof WebAssembly profiler.

Each section embeds one part of the Go source as executable Lean
definitions (integers are `Int`/`Nat` with explicit wrap-around where the
Go types wrap), and proves the properties the specification states about
them.
-/

namespace Wzprof

/-- Reduce to the canonical `uint64` representative (Go conversions and
wrap-around of `uint64` arithmetic). -/
def wrapU64 (x : Int) : Int := x % 2 ^ 64

/-- Reduce to the canonical `int64` representative (Go `int64` arithmetic
wraps in two's complement). -/
def wrapI64 (x : Int) : Int := (x + 2 ^ 63) % 2 ^ 64 - 2 ^ 63

/-- `wrapI64` is the identity on values already in `int64` range. -/
theorem wrapI64_id (x : Int) (h1 : -(2 ^ 63) ≤ x) (h2 : x < 2 ^ 63) :
    wrapI64 x = x := by
  unfold wrapI64
  omega

/-! ## CPU profiler function listener (cpu.go: `cpuProfiler.Before/After`)

The listener records, for every guest function call, the time spent in the
call minus the time spent in its direct children.  `cpuTimeFrame` mirrors
the Go struct of the same name: `start` is the timestamp taken at `Before`
(0 when the profiler was not running or the clock returned 0), `sub`
accumulates the durations of direct child calls, `trace` stands for the
stack trace captured at `Before` (its identity is all the model needs).
-/

structure cpuTimeFrame where
  start : Int
  sub   : Int
  trace : Nat
  deriving Repr, DecidableEq

/-- State of the `cpuProfiler` listener.  `running` models `p.counts != nil`;
`observations` is the log of `(trace, value)` pairs passed to
`stackCounterMap.observe`; `frames` is the per-depth stack (innermost first);
`traces` is the free-list of reusable trace buffers (modelled by the trace
values they hold). -/
structure CpuState where
  running      : Bool
  observations : List (Nat × Int)
  frames       : List cpuTimeFrame
  traces       : List Nat
  deriving Repr, DecidableEq

/-- `cpuProfiler.Before`: when running, stamp the entry time, pop a trace
buffer from the free-list (if any) and fill it from the stack iterator
(`stVal` stands for the captured trace); otherwise push the zero frame. -/
def cpuBefore (t : Int) (stVal : Nat) (s : CpuState) : CpuState :=
  if s.running then
    { s with
      frames := ⟨t, 0, stVal⟩ :: s.frames
      traces := s.traces.tail }
  else
    { s with frames := ⟨0, 0, 0⟩ :: s.frames }

/-- `cpuProfiler.After`: pop the innermost frame; if its entry time is
non-zero, compute the duration, add it to the parent's `sub`, observe
`duration - f.sub`, and return the trace buffer to the free-list.
All three arithmetic operations are Go `int64` operations, so each result
is wrapped to `int64` range.  Returns `none` when called with no
outstanding frame (the Go code would panic; such call sequences are out of
contract). -/
def cpuAfter (t : Int) (s : CpuState) : Option CpuState :=
  match s.frames with
  | [] => none
  | f :: rest =>
    if f.start ≠ 0 then
      let duration := wrapI64 (t - f.start)
      let rest' :=
        match rest with
        | p :: r => { p with sub := wrapI64 (p.sub + duration) } :: r
        | [] => []
      let obs :=
        if s.running then s.observations ++ [(f.trace, wrapI64 (duration - f.sub))]
        else s.observations
      some { s with
             observations := obs
             frames := rest'
             traces := s.traces ++ [f.trace] }
    else
      some { s with frames := rest }

/-- One listener callback: `before t stVal` is a guest call entry observed at
time `t` capturing stack trace `stVal`; `after t` is the matching exit
(`Abort` behaves identically in the source). -/
inductive CpuEvent where
  | before (t : Int) (stVal : Nat)
  | after (t : Int)
  deriving Repr, DecidableEq

def CpuEvent.time : CpuEvent → Int
  | .before t _ => t
  | .after t => t

def cpuStep (s : CpuState) : CpuEvent → Option CpuState
  | .before t stVal => some (cpuBefore t stVal s)
  | .after t => cpuAfter t s

def cpuRun (s : CpuState) : List CpuEvent → Option CpuState
  | [] => some s
  | e :: es => do cpuRun (← cpuStep s e) es

/-- The event times are nondecreasing, starting no earlier than `t0`
(the configured time function is monotonic). -/
def monoFrom (t0 : Int) : List CpuEvent → Bool
  | [] => true
  | e :: es => t0 ≤ e.time && monoFrom e.time es

/-- Every event time is at most `2^63 - 1`: the clock produces valid
nonnegative `int64` values (nonnegativity comes from `monoFrom` with a
nonnegative starting bound). -/
def timesFit : List CpuEvent → Bool
  | [] => true
  | e :: es => decide (e.time ≤ 2 ^ 63 - 1) && timesFit es

/-- Invariant of the frame stack at a point where the last event happened at
time `t0` (with all times in `[0, 2^63)`): every frame's child-accumulated
time is nonnegative; a non-sentinel frame has a positive entry time and its
entry time plus accumulated child time is bounded by the entry time of the
frame pushed directly above it (or by `t0` for the innermost frame); a
`start = 0` sentinel's accumulated time is bounded by `t0` directly. -/
def framesInv : Int → List cpuTimeFrame → Prop
  | _, [] => True
  | t0, f :: rest =>
    0 ≤ f.sub ∧
    (if f.start = 0 then f.sub ≤ t0 else 0 < f.start ∧ f.start + f.sub ≤ t0) ∧
    framesInv (if f.start = 0 then t0 else f.start) rest

theorem framesInv_mono {t0 t1 : Int} (h : t0 ≤ t1) :
    ∀ {fs : List cpuTimeFrame}, framesInv t0 fs → framesInv t1 fs := by
  intro fs
  induction fs generalizing t0 t1 with
  | nil => intro; trivial
  | cons f rest ih =>
    intro ⟨h1, h2, h3⟩
    refine ⟨h1, ?_, ?_⟩
    · by_cases hf : f.start = 0
      · rw [if_pos hf] at h2 ⊢
        omega
      · rw [if_neg hf] at h2 ⊢
        omega
    · by_cases hf : f.start = 0
      · rw [if_pos hf] at h3 ⊢
        exact ih h h3
      · rw [if_neg hf] at h3 ⊢
        exact h3

theorem cpuRun_obs_nonneg_aux :
    ∀ (es : List CpuEvent) (s : CpuState) (t0 : Int) (final : CpuState),
      0 ≤ t0 →
      framesInv t0 s.frames →
      (∀ p ∈ s.observations, 0 ≤ p.2) →
      monoFrom t0 es = true →
      timesFit es = true →
      cpuRun s es = some final →
      ∀ p ∈ final.observations, 0 ≤ p.2 := by
  intro es
  induction es with
  | nil =>
    intro s t0 final _ _ hobs _ _ hrun
    simp only [cpuRun, Option.some.injEq] at hrun
    exact hrun ▸ hobs
  | cons e es ih =>
    intro s t0 final ht0 hinv hobs hmono hfit hrun
    simp only [monoFrom, Bool.and_eq_true, decide_eq_true_eq] at hmono
    obtain ⟨hle, hmono'⟩ := hmono
    simp only [timesFit, Bool.and_eq_true, decide_eq_true_eq] at hfit
    obtain ⟨hfit1, hfit'⟩ := hfit
    simp only [cpuRun, Option.bind_eq_bind] at hrun
    cases e with
    | before t stVal =>
      have hle' : t0 ≤ t := hle
      simp only [cpuStep, Option.some_bind] at hrun
      refine ih _ t final (by omega) ?_ ?_ hmono' hfit' hrun
      · show framesInv t (cpuBefore t stVal s).frames
        unfold cpuBefore
        by_cases hr : s.running
        · rw [if_pos hr]
          refine ⟨le_refl 0, ?_, ?_⟩
          · split
            · show (0:Int) ≤ t
              omega
            · rename_i hcon
              have hne : ¬ t = 0 := hcon
              refine ⟨?_, ?_⟩
              · show (0:Int) < t
                omega
              · show t + 0 ≤ t
                omega
          · split
            · exact framesInv_mono hle' hinv
            · exact framesInv_mono hle' hinv
        · rw [if_neg hr]
          refine ⟨le_refl 0, ?_, ?_⟩
          · split
            · show (0:Int) ≤ t
              omega
            · rename_i hcon
              exact absurd rfl hcon
          · split
            · exact framesInv_mono hle' hinv
            · rename_i hcon
              exact absurd rfl hcon
      · intro p hp
        have hsame : (cpuBefore t stVal s).observations = s.observations := by
          unfold cpuBefore; by_cases hr : s.running
          · rw [if_pos hr]
          · rw [if_neg hr]
        exact hobs p (hsame ▸ hp)
    | after t =>
      have hle' : t0 ≤ t := hle
      have ht : t ≤ 2 ^ 63 - 1 := hfit1
      have hmono'' : monoFrom t es = true := hmono'
      simp only [cpuStep] at hrun
      cases hframes : s.frames with
      | nil =>
        rw [cpuAfter, hframes] at hrun
        simp at hrun
      | cons f rest =>
        rw [cpuAfter, hframes] at hrun
        rw [hframes] at hinv
        obtain ⟨hsub, hbound, hrest⟩ := hinv
        by_cases hf : f.start = 0
        · simp only [hf, ne_eq, not_true_eq_false, if_false, Option.some_bind] at hrun
          refine ih _ t final (by omega) ?_ ?_ hmono'' hfit' hrun
          · show framesInv t rest
            rw [if_pos hf] at hrest
            exact framesInv_mono hle' hrest
          · exact hobs
        · simp only [ne_eq, hf, not_false_eq_true, if_true, Option.some_bind] at hrun
          rw [if_neg hf] at hrest
          rw [if_neg hf] at hbound
          obtain ⟨hfpos, hfle⟩ := hbound
          have hdur : wrapI64 (t - f.start) = t - f.start := by
            apply wrapI64_id <;> omega
          have hobsv : wrapI64 (t - f.start - f.sub) = t - f.start - f.sub := by
            apply wrapI64_id <;> omega
          have hobs' : ∀ q ∈ (if s.running = true then
              s.observations ++ [(f.trace, wrapI64 (wrapI64 (t - f.start) - f.sub))]
              else s.observations), 0 ≤ q.2 := by
            rw [hdur, hobsv]
            intro q hq
            by_cases hr : s.running
            · rw [if_pos hr] at hq
              rcases List.mem_append.mp hq with hq | hq
              · exact hobs q hq
              · have hqe : q = (f.trace, t - f.start - f.sub) := by
                  simpa using hq
                rw [hqe]
                show (0:Int) ≤ t - f.start - f.sub
                omega
            · rw [if_neg hr] at hq
              exact hobs q hq
          cases rest with
          | nil =>
            refine ih _ t final (by omega) ?_ hobs' hmono'' hfit' hrun
            show framesInv t []
            trivial
          | cons p r =>
            obtain ⟨hp1, hp2, hp3⟩ := hrest
            by_cases hps : p.start = 0
            · rw [if_pos hps] at hp2 hp3
              have hpadd : wrapI64 (p.sub + wrapI64 (t - f.start)) =
                  p.sub + (t - f.start) := by
                rw [hdur]
                apply wrapI64_id <;> omega
              refine ih _ t final (by omega) ?_ hobs' hmono'' hfit' hrun
              show framesInv t
                ({ p with sub := wrapI64 (p.sub + wrapI64 (t - f.start)) } :: r)
              rw [hpadd]
              refine ⟨by show 0 ≤ p.sub + (t - f.start); omega, ?_, ?_⟩
              · split
                · show p.sub + (t - f.start) ≤ t
                  omega
                · rename_i hcon
                  exact absurd hps hcon
              · split
                · exact framesInv_mono (by omega) hp3
                · rename_i hcon
                  exact absurd hps hcon
            · rw [if_neg hps] at hp2 hp3
              obtain ⟨hppos, hple⟩ := hp2
              have hpadd : wrapI64 (p.sub + wrapI64 (t - f.start)) =
                  p.sub + (t - f.start) := by
                rw [hdur]
                apply wrapI64_id <;> omega
              refine ih _ t final (by omega) ?_ hobs' hmono'' hfit' hrun
              show framesInv t
                ({ p with sub := wrapI64 (p.sub + wrapI64 (t - f.start)) } :: r)
              rw [hpadd]
              refine ⟨by show 0 ≤ p.sub + (t - f.start); omega, ?_, ?_⟩
              · split
                · rename_i hcon
                  exact absurd hcon hps
                · refine ⟨hppos, by show p.start + (p.sub + (t - f.start)) ≤ t; omega⟩
              · split
                · rename_i hcon
                  exact absurd hcon hps
                · exact hp3

/-- Counterexample to C1 as stated: the observed self-time can be negative
for a monotonic `int64` clock.  With the (publicly configurable) `TimeFunc`
returning -4 at `Before` and `2^63 - 1` at `After` — a nondecreasing `int64`
sequence — the `int64` subtraction `now - f.start` wraps, and since
`cpuProfiler.After` contains no clamp, the profiler observes `3 - 2^63 < 0`. -/
theorem c1_counterexample_int64_wrap :
    monoFrom (-4) [CpuEvent.before (-4) 1, CpuEvent.after (2 ^ 63 - 1)] = true ∧
    cpuRun ⟨true, [], [], []⟩ [CpuEvent.before (-4) 1, CpuEvent.after (2 ^ 63 - 1)] =
      some ⟨true, [(1, 3 - 2 ^ 63)], [], [1]⟩ ∧
    (3 - 2 ^ 63 : Int) < 0 := by
  decide

/-- C1 amended: in `cpuProfiler.After`, the value observed for a popped
frame `f` is `duration - f.sub`, `duration = now() - f.start` minus the
accumulated child durations.  For a monotonic clock whose values stay in
`[0, 2^63)` — valid `int64` timestamps, as produced by the runtime's
nanotime, so that no `int64` subtraction wraps — the observed self-time is
never negative for any matched Before/After pair, hence equal to its value
clamped at 0. -/
theorem c1_cpu_self_time_nonneg (t0 : Int) (events : List CpuEvent)
    (ts : List Nat) (final : CpuState)
    (ht0 : 0 ≤ t0)
    (hmono : monoFrom t0 events = true)
    (hfit : timesFit events = true)
    (hrun : cpuRun ⟨true, [], [], ts⟩ events = some final) :
    ∀ p ∈ final.observations, 0 ≤ p.2 ∧ p.2 = max p.2 0 := by
  have h := cpuRun_obs_nonneg_aux events ⟨true, [], [], ts⟩ t0 final ht0
    trivial (by intro p hp; simp at hp) hmono hfit hrun
  intro p hp
  refine ⟨h p hp, ?_⟩
  have := h p hp
  omega

/-- Witness for C1 at the spec's scenario S5: three nested calls entered at
times 1, 10, 42 and exited at 100, 101, 102; the innermost call's observed
self-time is 58 ≥ 0. -/
theorem c1_cpu_self_time_nonneg_witness :
    (0:Int) ≤ (((13:Nat), (58:Int))).2 ∧ (((13:Nat), (58:Int))).2 =
      max (((13:Nat), (58:Int))).2 0 :=
  c1_cpu_self_time_nonneg 0
    [.before 1 11, .before 10 12, .before 42 13, .after 100, .after 101, .after 102]
    [] ⟨true, [(13, 58), (12, 33), (11, 10)], [], [13, 12, 11]⟩
    (by decide) (by decide) (by decide) (by decide) (13, 58) (by decide)

/-- C10: a call whose `Before` stamped a zero entry timestamp while the
profiler was running is silently dropped: the matching `After` pops the frame
but records no observation and returns no buffer to the trace free-list. -/
theorem c10_zero_start_sentinel_drops_call (s : CpuState) (stVal : Nat) (t : Int)
    (h : s.running = true) :
    cpuAfter t (cpuBefore 0 stVal s) = some { s with traces := s.traces.tail } := by
  unfold cpuBefore
  rw [if_pos h]
  unfold cpuAfter
  simp

/-- Witness for C10 at a concrete state: one buffer in the free-list is
consumed by `Before` and never returned; nothing is observed. -/
theorem c10_zero_start_sentinel_drops_call_witness :
    cpuAfter 9 (cpuBefore 0 7 ⟨true, [], [], [5]⟩) =
      some ⟨true, [], [], List.tail [5]⟩ :=
  c10_zero_start_sentinel_drops_call ⟨true, [], [], [5]⟩ 7 9 rfl

/-! ## Stack traces and the CPU profiler lifecycle
(wzprof.go: `stackTrace`, `stackTrace.host`; cpu.go: `CPUProfiler.StartProfile`,
`CPUProfiler.StopProfile`) -/

/-- A runtime function definition, reduced to what the embedding needs:
`isHost` models `Definition().GoFunction() != nil` and `name` keeps
function identity. -/
structure FnDef where
  isHost : Bool
  name   : Nat
  deriving Repr, DecidableEq

/-- `stackTrace`: parallel vectors of functions and program counters plus the
64-bit key.  Frames are ordered as the stack iterator yields them: innermost
(the called function) first. -/
structure stackTrace where
  fns : List FnDef
  pcs : List Nat
  key : Nat
  deriving Repr, DecidableEq

/-- `stackTrace.host`: true when the trace is non-empty and its first frame
(`fns[0]`, the innermost one) is a host function. -/
def stackTrace.host (st : stackTrace) : Bool :=
  match st.fns with
  | [] => false
  | f :: _ => f.isHost

/-- The claim's predicate, written from the spec's words: the *outermost*
frame of the trace is a host function.  Per the spec's data model a stack
trace is ordered innermost first, so the outermost frame is the last one. -/
def stackTrace.outermostHost (st : stackTrace) : Bool :=
  match st.fns.getLast? with
  | none => false
  | some f => f.isHost

/-- `stackCounter`: aggregate for one stack key, `value = [count, total]`. -/
structure stackCounter where
  stack : stackTrace
  count : Int
  total : Int
  deriving Repr, DecidableEq

/-- `CPUProfiler` lifecycle state: `counts = none` models the nil map of a
stopped profiler; `start` is the start timestamp; `host` the
host-time-enabled flag. -/
structure CPUProfiler where
  counts : Option (List (Nat × stackCounter))
  start  : Int
  host   : Bool
  deriving Repr, DecidableEq

/-- `CPUProfiler.StartProfile`: returns false and leaves everything untouched
when the profiler is already running, otherwise allocates the counts map and
stamps the start time. -/
def StartProfile (now : Int) (p : CPUProfiler) : Bool × CPUProfiler :=
  match p.counts with
  | some _ => (false, p)
  | none => (true, { p with counts := some [], start := now })

/-- `CPUProfiler.StopProfile`: swap the counts map out (the profiler
restarts from a stopped state); return nil when never started; when host
time is disabled, delete every sample whose trace satisfies
`stackTrace.host`.  The first component stands for the samples of the
returned profile (`buildProfile` emits one pprof sample per entry). -/
def StopProfile (p : CPUProfiler) : Option (List (Nat × stackCounter)) × CPUProfiler :=
  let p' := { p with counts := none }
  match p.counts with
  | none => (none, p')
  | some samples =>
    (some (if p.host then samples
           else samples.filter (fun kv => ! kv.2.stack.host)), p')

/-- C8: `StartProfile` on a running profiler reports failure and has no side
effects — the state (counts map, counters, start time) is exactly as before,
and a later `StopProfile` returns what it would have anyway. -/
theorem c8_start_while_running_no_side_effects (p : CPUProfiler) (now : Int)
    (m : List (Nat × stackCounter)) (h : p.counts = some m) :
    StartProfile now p = (false, p) ∧
      StopProfile (StartProfile now p).2 = StopProfile p := by
  unfold StartProfile
  rw [h]
  exact ⟨rfl, rfl⟩

/-- Witness for C8 at a concrete running profiler. -/
theorem c8_start_while_running_no_side_effects_witness :
    StartProfile 9 ⟨some [], 3, false⟩ = (false, ⟨some [], 3, false⟩) ∧
      StopProfile (StartProfile 9 ⟨some [], 3, false⟩).2 =
        StopProfile ⟨some [], 3, false⟩ :=
  c8_start_while_running_no_side_effects ⟨some [], 3, false⟩ 9 [] rfl

/-- Counterexample for C3 as stated.  With host time disabled:
a sample whose *outermost* frame is a host function but whose innermost frame
is a guest function is kept by `StopProfile`, and a sample whose outermost
frame is a guest function but whose innermost frame is a host function is
removed — the filter tests the innermost frame (`fns[0]`), not the outermost
one. -/
theorem c3_counterexample_outermost_host :
    (let trOuterHost : stackTrace := ⟨[⟨false, 2⟩, ⟨true, 1⟩], [7, 8], 1⟩
     let trInnerHost : stackTrace := ⟨[⟨true, 1⟩, ⟨false, 2⟩], [8, 7], 2⟩
     let cOuter : stackCounter := ⟨trOuterHost, 1, 5⟩
     let cInner : stackCounter := ⟨trInnerHost, 1, 5⟩
     trOuterHost.outermostHost = true ∧
       (StopProfile ⟨some [(1, cOuter)], 0, false⟩).1 = some [(1, cOuter)] ∧
     trInnerHost.outermostHost = false ∧
       (StopProfile ⟨some [(2, cInner)], 0, false⟩).1 = some []) := by
  decide

/-- C3 amended: when host time is disabled, `StopProfile` removes exactly the
samples whose *innermost* frame (the first one, the function the listener
fired for) is a host function; every sample whose innermost frame is a guest
function is kept, and nothing else appears. -/
theorem c3_stop_profile_filters_host_leaf (p : CPUProfiler)
    (m : List (Nat × stackCounter)) (hh : p.host = false) (hc : p.counts = some m) :
    ∃ r, (StopProfile p).1 = some r ∧
      (∀ kv ∈ r, kv.2.stack.host = false) ∧
      (∀ kv ∈ m, kv.2.stack.host = false → kv ∈ r) ∧
      (∀ kv ∈ r, kv ∈ m) := by
  refine ⟨m.filter (fun kv => ! kv.2.stack.host), ?_, ?_, ?_, ?_⟩
  · unfold StopProfile
    rw [hc]
    simp [hh]
  · intro kv hkv
    have := List.of_mem_filter hkv
    simpa using this
  · intro kv hkv hhost
    exact List.mem_filter.mpr ⟨hkv, by simp [hhost]⟩
  · intro kv hkv
    exact List.mem_of_mem_filter hkv

/-- Witness for the amended C3 at a concrete profiler holding one
host-leaf sample and one guest-leaf sample. -/
theorem c3_stop_profile_filters_host_leaf_witness :
    ∃ r, (StopProfile ⟨some [(1, ⟨⟨[⟨true, 1⟩], [8], 1⟩, 1, 5⟩),
                             (2, ⟨⟨[⟨false, 2⟩], [7], 2⟩, 1, 6⟩)], 0, false⟩).1 = some r ∧
      (∀ kv ∈ r, kv.2.stack.host = false) ∧
      (∀ kv ∈ [(1, (⟨⟨[⟨true, 1⟩], [8], 1⟩, 1, 5⟩ : stackCounter)),
               (2, ⟨⟨[⟨false, 2⟩], [7], 2⟩, 1, 6⟩)], kv.2.stack.host = false → kv ∈ r) ∧
      (∀ kv ∈ r, kv ∈ [(1, (⟨⟨[⟨true, 1⟩], [8], 1⟩, 1, 5⟩ : stackCounter)),
                       (2, ⟨⟨[⟨false, 2⟩], [7], 2⟩, 1, 6⟩)]) :=
  c3_stop_profile_filters_host_leaf _ _ rfl rfl

/-! ## Stack trace keying (wzprof.go: `makeStackTrace`, `stackTrace.bytes`,
`stackTraceHashSeed`) -/

/-- The 8 little-endian bytes of one 64-bit program counter. -/
def pcLEBytes (pc : Nat) : List Nat :=
  (List.range 8).map (fun i => pc / 2 ^ (8 * i) % 256)

/-- `stackTrace.bytes`: the raw byte view of the PC vector (8 bytes per PC,
little endian, in stack order). -/
def stackTraceBytes (pcs : List Nat) : List Nat :=
  (pcs.map pcLEBytes).flatten

/-- `makeStackTrace`: truncate and refill the reusable buffer `st` from the
stack iterator (modelled by the `frames` it yields), then key the trace by
hashing the PC bytes.  `hash` stands for `maphash.Bytes` applied to the
process-wide seed `stackTraceHashSeed`, fixed once per process. -/
def makeStackTrace (hash : List Nat → Nat) (st : stackTrace)
    (frames : List (FnDef × Nat)) : stackTrace :=
  { fns := frames.map Prod.fst
    pcs := frames.map Prod.snd
    key := hash (stackTraceBytes (frames.map Prod.snd)) }

/-- C5: the key assigned by `makeStackTrace` is a deterministic function of
the PC sequence only: two traces with identical PC sequences get the same
key under the process-fixed seeded hash, whatever the function identities in
their frames and whatever buffers are reused. -/
theorem c5_key_is_function_of_pcs_only (hash : List Nat → Nat)
    (st1 st2 : stackTrace) (frames1 frames2 : List (FnDef × Nat))
    (h : frames1.map Prod.snd = frames2.map Prod.snd) :
    (makeStackTrace hash st1 frames1).key = (makeStackTrace hash st2 frames2).key := by
  unfold makeStackTrace
  simp only [h]

/-- Witness for C5: two one-frame stacks with the same PC but different
function identities (one host, one guest) get the same key. -/
theorem c5_key_is_function_of_pcs_only_witness :
    (makeStackTrace (fun l => l.length) ⟨[], [], 0⟩ [(⟨true, 1⟩, 4)]).key =
      (makeStackTrace (fun l => l.length) ⟨[⟨true, 9⟩], [1], 7⟩ [(⟨false, 2⟩, 4)]).key :=
  c5_key_is_function_of_pcs_only (fun l => l.length) ⟨[], [], 0⟩ ⟨[⟨true, 9⟩], [1], 7⟩
    [(⟨true, 1⟩, 4)] [(⟨false, 2⟩, 4)] rfl

/-! ## Go pclntab symbolizer: PC ↔ function-ID maps
(pclntab.go: `pclntab.PCToFID`, `pclntab.FIDToPC`, `funcValueOffset`) -/

/-- `funcValueOffset = 0x1000`, the Wasm linker's base for function values. -/
def funcValueOffset : Int := 4096

/-- `pclntab.PCToFID`: `fid(uint64(pc)>>16 + p.imported - funcValueOffset)`;
`pc` is a `uint64` value, the arithmetic is `uint64`, the result is cast to
the `int`-typed `fid`. -/
def PCToFID (imported pc : Int) : Int :=
  wrapI64 (wrapU64 (wrapU64 (pc / 2 ^ 16 + imported) - funcValueOffset))

/-- `pclntab.FIDToPC`: `ptr((funcValueOffset + f - fid(p.imported)) << 16)`;
the arithmetic is `int64` (`fid`), the result is cast to the
`uint64`-backed `ptr`. -/
def FIDToPC (imported f : Int) : Int :=
  wrapU64 (wrapI64 (wrapI64 (wrapI64 (funcValueOffset + f) - wrapI64 imported) * 2 ^ 16))

/-- C6: the pclntab symbolizer's PC↔function-ID maps are mutually inverse
for every function id `f` whose linker slot `0x1000 + f - imported` is
nonnegative and below 2^48 (`imported` being the imported-function count,
a `uint64` small enough to be `int64`-representable; `f` an `int64`). -/
theorem c6_pc_fid_roundtrip (imported f : Int)
    (h1 : 0 ≤ imported) (h2 : imported < 2 ^ 63)
    (h3 : -2 ^ 63 ≤ f) (h4 : f < 2 ^ 63)
    (h5 : 0 ≤ funcValueOffset + f - imported)
    (h6 : funcValueOffset + f - imported < 2 ^ 48) :
    PCToFID imported (FIDToPC imported f) = f := by
  unfold PCToFID FIDToPC wrapU64 wrapI64 funcValueOffset at *
  omega

/-- Witness for C6 with no imported functions and function id 5. -/
theorem c6_pc_fid_roundtrip_witness : PCToFID 0 (FIDToPC 0 5) = 5 :=
  c6_pc_fid_roundtrip 0 5 (by norm_num) (by norm_num) (by norm_num)
    (by norm_num) (by norm_num [funcValueOffset]) (by norm_num [funcValueOffset])

/-! ## Memory profiler (mem.go: `MemoryProfiler.observeAlloc`,
`MemoryProfiler.observeFree`, `reallocProfiler.After`,
`goRuntimeMallocgcProfiler.After`)

Go maps are modelled as association lists with insert-replaces semantics:
`mapSet` prepends and drops any earlier binding of the key, `mapDel`
removes every binding of the key, lookups return the first match. -/

/-- A record of the in-use map: the stack counter the allocation was charged
to (identified by its stack key; the Go struct holds a `*stackCounter`) and
the allocation size. -/
structure memoryAllocation where
  key  : Nat
  size : Nat
  deriving Repr, DecidableEq

/-- `MemoryProfiler` state: `alloc` is the per-stack counter map keyed by
trace hash, `inuse` maps guest addresses to live allocation records. -/
structure MemoryProfiler where
  alloc : List (Nat × stackCounter)
  inuse : List (Nat × memoryAllocation)
  deriving Repr, DecidableEq

def scmLookup (m : List (Nat × stackCounter)) (key : Nat) : Option stackCounter :=
  (m.find? (fun kv => kv.1 == key)).map Prod.snd

/-- `stackCounterMap.observe`: look the trace's counter up (inserting a
fresh clone when absent) and add `(1, val)` to its `(count, total)`. -/
def scmObserve (m : List (Nat × stackCounter)) (st : stackTrace) (val : Int) :
    List (Nat × stackCounter) :=
  match scmLookup m st.key with
  | some sc =>
    (st.key, { sc with count := sc.count + 1, total := sc.total + val }) ::
      m.filter (fun kv => kv.1 != st.key)
  | none => (st.key, ⟨st, 1, val⟩) :: m.filter (fun kv => kv.1 != st.key)

def inuseGet (m : List (Nat × memoryAllocation)) (addr : Nat) : Option memoryAllocation :=
  (m.find? (fun kv => kv.1 == addr)).map Prod.snd

def inuseSet (m : List (Nat × memoryAllocation)) (addr : Nat) (v : memoryAllocation) :
    List (Nat × memoryAllocation) :=
  (addr, v) :: m.filter (fun kv => kv.1 != addr)

def inuseDel (m : List (Nat × memoryAllocation)) (addr : Nat) :
    List (Nat × memoryAllocation) :=
  m.filter (fun kv => kv.1 != addr)

/-- `MemoryProfiler.observeAlloc`: charge the counter under the trace's key
and store `{counter, size}` at `addr` in the in-use map. -/
def observeAlloc (p : MemoryProfiler) (addr size : Nat) (st : stackTrace) :
    MemoryProfiler :=
  { alloc := scmObserve p.alloc st size
    inuse := inuseSet p.inuse addr ⟨st.key, size⟩ }

/-- `MemoryProfiler.observeFree`: drop the in-use record at `addr`. -/
def observeFree (p : MemoryProfiler) (addr : Nat) : MemoryProfiler :=
  { p with inuse := inuseDel p.inuse addr }

/-- `reallocProfiler.After`: on an error-free return, free the old address
then record the new allocation at the returned address. -/
def reallocAfter (p : MemoryProfiler) (errored : Bool) (addr size resultAddr : Nat)
    (st : stackTrace) : MemoryProfiler :=
  if errored then p else observeAlloc (observeFree p addr) resultAddr size st

/-- `goRuntimeMallocgcProfiler.After`: the returned pointer is unknown, so an
error-free, non-zero-size `runtime.mallocgc` call is recorded at guest
address 0. -/
def mallocgcAfter (p : MemoryProfiler) (errored : Bool) (size : Nat)
    (st : stackTrace) : MemoryProfiler :=
  if !errored && size != 0 then observeAlloc p 0 size st else p

def runMallocgc (p : MemoryProfiler) : List (Bool × Nat × stackTrace) → MemoryProfiler
  | [] => p
  | (e, sz, st) :: rest => runMallocgc (mallocgcAfter p e sz st) rest

/-- C7: after an error-free `realloc(p, n)` returning a new address
`p' ≠ p`, the old record is destroyed and the new one created: `p` is absent
from the in-use map and `p'` maps to a record of size `n`. -/
theorem c7_realloc_moves_inuse_record (p : MemoryProfiler) (st : stackTrace)
    (addr n resultAddr : Nat) (h : addr ≠ resultAddr) :
    inuseGet (reallocAfter p false addr n resultAddr st).inuse addr = none ∧
      inuseGet (reallocAfter p false addr n resultAddr st).inuse resultAddr =
        some ⟨st.key, n⟩ := by
  unfold reallocAfter observeAlloc observeFree inuseGet inuseSet inuseDel
  simp only [if_neg Bool.false_ne_true]
  constructor
  · rw [List.find?_cons_of_neg]
    · have hnone : List.find? (fun kv => kv.1 == addr)
          (List.filter (fun kv => kv.1 != resultAddr)
            (List.filter (fun kv => kv.1 != addr) p.inuse)) = none := by
        rw [List.find?_eq_none]
        intro kv hkv
        have h2 := List.of_mem_filter (List.mem_of_mem_filter hkv)
        simpa using h2
      rw [hnone]
      rfl
    · simpa using Ne.symm h
  · rw [List.find?_cons_of_pos]
    · rfl
    · simp

/-- Witness for C7: realloc moving address 3 to address 4 with size 10. -/
theorem c7_realloc_moves_inuse_record_witness :
    inuseGet (reallocAfter ⟨[], [(3, ⟨9, 2⟩)]⟩ false 3 10 4 ⟨[], [], 9⟩).inuse 3 = none ∧
      inuseGet (reallocAfter ⟨[], [(3, ⟨9, 2⟩)]⟩ false 3 10 4 ⟨[], [], 9⟩).inuse 4 =
        some ⟨9, 10⟩ :=
  c7_realloc_moves_inuse_record ⟨[], [(3, ⟨9, 2⟩)]⟩ ⟨[], [], 9⟩ 3 10 4 (by decide)

theorem runMallocgc_inuse_only_zero :
    ∀ (evs : List (Bool × Nat × stackTrace)) (p : MemoryProfiler),
      (∀ kv ∈ p.inuse, kv.1 = 0) → p.inuse.length ≤ 1 →
      (∀ kv ∈ (runMallocgc p evs).inuse, kv.1 = 0) ∧
        (runMallocgc p evs).inuse.length ≤ 1 := by
  intro evs
  induction evs with
  | nil => intro p h1 h2; exact ⟨h1, h2⟩
  | cons e rest ih =>
    obtain ⟨err, sz, st⟩ := e
    intro p h1 h2
    show (∀ kv ∈ (runMallocgc (mallocgcAfter p err sz st) rest).inuse, kv.1 = 0) ∧ _
    refine ih (mallocgcAfter p err sz st) ?_ ?_
    all_goals
      unfold mallocgcAfter observeAlloc inuseSet
      by_cases hc : (!err && sz != 0) = true
    · rw [if_pos hc]
      intro kv hkv
      rcases List.mem_cons.mp hkv with hkv | hkv
      · rw [hkv]
      · have hmem := List.mem_of_mem_filter hkv
        exact h1 kv hmem
    · rw [if_neg hc]; exact h1
    · rw [if_pos hc]
      show ((0, (⟨st.key, sz⟩ : memoryAllocation)) ::
        p.inuse.filter (fun kv => kv.1 != 0)).length ≤ 1
      have hnil : p.inuse.filter (fun kv => kv.1 != 0) = [] := by
        rw [List.filter_eq_nil_iff]
        intro kv hkv
        simp [h1 kv hkv]
      rw [hnil]
      simp
    · rw [if_neg hc]; exact h2

/-- C9: every allocation observed through the `runtime.mallocgc` listener is
recorded at guest address 0, so after any sequence of error-free mallocgc
calls starting from an empty in-use map, the in-use map holds at most one
record and every record it holds sits at address 0. -/
theorem c9_mallocgc_inuse_at_most_one (alloc0 : List (Nat × stackCounter))
    (evs : List (Bool × Nat × stackTrace)) :
    (∀ kv ∈ (runMallocgc ⟨alloc0, []⟩ evs).inuse, kv.1 = 0) ∧
      (runMallocgc ⟨alloc0, []⟩ evs).inuse.length ≤ 1 :=
  runMallocgc_inuse_only_zero evs ⟨alloc0, []⟩ (by intro kv hkv; simp at hkv)
    (by simp)

/-! ## Sampler (sampler.go: `Sample`, `sampledFunctionListener`, `bitstack`)

The bit-stack stores one accept/reject bit per outstanding call, packed into
64-bit words (`Nat`s kept below 2^64 by the operations themselves). -/

/-- Go's `^x` on a `uint64`: complement within 64 bits. -/
def compl64 (x : Nat) : Nat := x ^^^ (2 ^ 64 - 1)

structure bitstack where
  size : Nat
  bits : List Nat
  deriving Repr, DecidableEq

/-- `bitstack.push`: grow the word array if needed (copying, zero-filling),
clear then set the bit at position `size`, increment `size`. -/
def bitstack.push (s : bitstack) (bit : Nat) : bitstack :=
  let index := s.size / 64
  let shift := s.size % 64
  let bits :=
    if s.bits.length ≤ index then
      s.bits ++ List.replicate (index + 1 - s.bits.length) 0
    else s.bits
  let w := bits.getD index 0
  let w' := (w &&& compl64 (1 <<< shift)) ||| ((bit &&& 1) <<< shift)
  { size := s.size + 1, bits := bits.set index w' }

/-- `bitstack.pop`: decrement `size` and read the bit there.  (Popping an
empty stack is a programming error in the source; callers below only pop
after a matching push.) -/
def bitstack.pop (s : bitstack) : Nat × bitstack :=
  let size := s.size - 1
  let index := size / 64
  let shift := size % 64
  ((s.bits.getD index 0 >>> shift) &&& 1, { s with size := size })

/-- The bit stored at stack position `j`. -/
def bitAt (s : bitstack) (j : Nat) : Nat :=
  (s.bits.getD (j / 64) 0 >>> (j % 64)) &&& 1

/-- The packed words represent the list `bs` of pending bits (index 0 =
bottom of the stack). -/
def reprStack (bs : List Bool) (s : bitstack) : Prop :=
  s.size = bs.length ∧ ∀ j, j < bs.length → bitAt s j = (bs.getD j false).toNat

theorem shiftRight_and_one (x n : Nat) :
    (x >>> n) &&& 1 = if x.testBit n then 1 else 0 := by
  rw [Nat.and_one_is_mod, Nat.shiftRight_eq_div_pow, Nat.testBit_to_div_mod]
  rcases Nat.mod_two_eq_zero_or_one (x / 2 ^ n) with h | h <;> simp [h]

theorem getD_append_replicate_zero (l : List Nat) (n i : Nat) :
    (l ++ List.replicate n 0).getD i 0 = l.getD i 0 := by
  simp only [List.getD_eq_getElem?_getD, List.getElem?_append]
  split
  · rfl
  · rename_i hlen
    have hnone : l[i]? = none := by
      rw [List.getElem?_eq_none_iff]
      omega
    rw [hnone, List.getElem?_replicate]
    split <;> rfl

/-- After `push`, every bit strictly below the old size is unchanged. -/
theorem bitAt_push_lt (s : bitstack) (bit j : Nat) (hj : j < s.size) :
    bitAt (s.push bit) j = bitAt s j := by
  unfold bitstack.push bitAt
  simp only
  set index := s.size / 64 with hindex
  set shift := s.size % 64 with hshift
  set bits := if s.bits.length ≤ index then
      s.bits ++ List.replicate (index + 1 - s.bits.length) 0
    else s.bits with hbits
  have hpad : ∀ i, bits.getD i 0 = s.bits.getD i 0 := by
    intro i
    rw [hbits]
    split
    · exact getD_append_replicate_zero _ _ _
    · rfl
  have hlenb : index < bits.length := by
    rw [hbits]
    split
    · rename_i hle
      rw [List.length_append, List.length_replicate]
      omega
    · rename_i hlt
      omega
  by_cases hji : j / 64 = index
  · have hshift' : j % 64 < shift := by
      rw [hshift]
      omega
    rw [hji]
    rw [List.getD_eq_getElem?_getD, List.getElem?_set_self hlenb]
    simp only [Option.getD_some]
    rw [shiftRight_and_one, shiftRight_and_one, hpad]
    congr 1
    rw [Nat.testBit_lor, Nat.testBit_land]
    have h1 : Nat.testBit (compl64 (1 <<< shift)) (j % 64) = true := by
      unfold compl64
      rw [Nat.shiftLeft_eq, one_mul, Nat.testBit_xor, Nat.testBit_two_pow,
        Nat.testBit_two_pow_sub_one]
      have : ¬(shift = j % 64) := by omega
      have h64 : j % 64 < 64 := Nat.mod_lt _ (by norm_num)
      simp [this, h64]
    have h2 : Nat.testBit ((bit &&& 1) <<< shift) (j % 64) = false := by
      rw [Nat.testBit_shiftLeft]
      have : ¬(shift ≤ j % 64) := by omega
      simp [this]
    rw [h1, h2]
    simp
  · rw [List.getD_eq_getElem?_getD, List.getElem?_set_ne (by omega),
      ← List.getD_eq_getElem?_getD, hpad]

/-- After `push bit`, the bit at the old size is `bit &&& 1`. -/
theorem bitAt_push_self (s : bitstack) (bit : Nat) :
    bitAt (s.push bit) s.size = bit &&& 1 := by
  unfold bitstack.push bitAt
  simp only
  set index := s.size / 64 with hindex
  set shift := s.size % 64 with hshift
  set bits := if s.bits.length ≤ index then
      s.bits ++ List.replicate (index + 1 - s.bits.length) 0
    else s.bits with hbits
  have hlenb : index < bits.length := by
    rw [hbits]
    split
    · rename_i hle
      rw [List.length_append, List.length_replicate]
      omega
    · rename_i hlt
      omega
  rw [List.getD_eq_getElem?_getD, List.getElem?_set_self hlenb]
  simp only [Option.getD_some]
  rw [shiftRight_and_one]
  rw [Nat.testBit_lor, Nat.testBit_land]
  have h1 : Nat.testBit (compl64 (1 <<< shift)) shift = false := by
    unfold compl64
    rw [Nat.shiftLeft_eq, one_mul, Nat.testBit_xor, Nat.testBit_two_pow,
      Nat.testBit_two_pow_sub_one]
    have h64 : shift < 64 := Nat.mod_lt _ (by norm_num)
    simp [h64]
  have h2 : Nat.testBit ((bit &&& 1) <<< shift) shift = decide (bit % 2 = 1) := by
    rw [Nat.testBit_shiftLeft, Nat.and_one_is_mod, Nat.testBit_to_div_mod]
    simp
  rw [h1, h2]
  simp only [Bool.and_false, Bool.false_or]
  rw [Nat.and_one_is_mod]
  rcases Nat.mod_two_eq_zero_or_one bit with h | h <;> simp [h]

/-- `push` then `pop` returns the pushed bit (mod 2) and restores the
represented stack. -/
theorem reprStack_push (bs : List Bool) (s : bitstack) (b : Bool)
    (h : reprStack bs s) :
    reprStack (bs ++ [b]) (s.push b.toNat) := by
  obtain ⟨hsize, hbit⟩ := h
  constructor
  · show s.size + 1 = _
    rw [List.length_append, List.length_singleton, hsize]
  · intro j hj
    rw [List.length_append, List.length_singleton] at hj
    by_cases hlt : j < bs.length
    · rw [bitAt_push_lt s _ j (by omega), hbit j hlt]
      congr 1
      rw [List.getD_eq_getElem?_getD, List.getD_eq_getElem?_getD,
        List.getElem?_append_left hlt]
    · have hj' : j = bs.length := by omega
      subst hj'
      rw [← hsize, bitAt_push_self]
      rw [hsize, List.getD_eq_getElem?_getD, List.getElem?_append_right (le_refl _)]
      simp only [Nat.sub_self, List.getElem?_cons_zero, Option.getD_some]
      cases b <;> rfl

theorem reprStack_pop (bs : List Bool) (s : bitstack) (b : Bool)
    (h : reprStack (bs ++ [b]) s) :
    s.pop = (b.toNat, { s with size := bs.length }) ∧
      reprStack bs { s with size := bs.length } := by
  obtain ⟨hsize, hbit⟩ := h
  rw [List.length_append, List.length_singleton] at hsize
  have hs1 : s.size - 1 = bs.length := by omega
  have hpop1 : (s.bits.getD ((s.size - 1) / 64) 0 >>> ((s.size - 1) % 64)) &&& 1
      = b.toNat := by
    rw [hs1]
    have hb := hbit bs.length (by rw [List.length_append, List.length_singleton]; omega)
    unfold bitAt at hb
    rw [hb, List.getD_eq_getElem?_getD, List.getElem?_append_right (le_refl _)]
    simp
  refine ⟨?_, rfl, ?_⟩
  · show ((s.bits.getD ((s.size - 1) / 64) 0 >>> ((s.size - 1) % 64)) &&& 1,
      ({ s with size := s.size - 1 } : bitstack)) = _
    rw [hpop1, hs1]
  · intro j hj
    have hb := hbit j (by rw [List.length_append, List.length_singleton]; omega)
    unfold bitAt at hb
    show (s.bits.getD (j / 64) 0 >>> (j % 64)) &&& 1 = _
    rw [hb]
    congr 1
    rw [List.getD_eq_getElem?_getD, List.getD_eq_getElem?_getD,
      List.getElem?_append_left hj]

/-- `sampledFunctionListener`: the wrapper state created by `Sample` for a
rate in (0,1): a `uint32` down-counter, the reset value `cycle`, and the
accept/reject bit-stack.  (The inner listener is tracked by the forwarded
flags returned below.) -/
structure sampledFunctionListener where
  count : Nat
  cycle : Nat
  stack : bitstack
  deriving Repr, DecidableEq

/-- `sampledFunctionListener.Before`: decrement the `uint32` counter; on
reaching zero, reset it to `cycle`, forward to the inner listener and push
bit 1; otherwise push bit 0.  The returned flag says whether the call was
forwarded. -/
def sampledBefore (s : sampledFunctionListener) : Bool × sampledFunctionListener :=
  let count := (s.count + (2 ^ 32 - 1)) % 2 ^ 32
  if count = 0 then
    (true, { s with count := s.cycle, stack := s.stack.push 1 })
  else
    (false, { s with count := count, stack := s.stack.push 0 })

/-- `sampledFunctionListener.After` (and `Abort`): pop the bit-stack and
forward exactly when the popped bit is 1. -/
def sampledAfter (s : sampledFunctionListener) : Bool × sampledFunctionListener :=
  ((s.stack.pop).1 != 0, { s with stack := (s.stack.pop).2 })

/-- The listener `Sample` builds for `0 < rate < 1`: both counters start at
`cycle = ⌈1/rate⌉` and the bit-stack uses the inline one-word array. -/
def newSampledListener (cycle : Nat) : sampledFunctionListener :=
  ⟨cycle, cycle, ⟨0, [0]⟩⟩

/-- A callback event on the sampled listener: `call` is `Before`, `ret` is
the matching `After`/`Abort`. -/
inductive SEv where
  | call
  | ret
  deriving Repr, DecidableEq

/-- Callback counters: `nB`/`nA` count `Before` and `After`/`Abort`
callbacks on the wrapper, `fB`/`fA` count the ones forwarded to the inner
listener. -/
structure SampleStats where
  nB : Nat
  fB : Nat
  nA : Nat
  fA : Nat
  deriving Repr, DecidableEq

def sampledStep (s : sampledFunctionListener) (st : SampleStats) :
    SEv → sampledFunctionListener × SampleStats
  | .call =>
    let r := sampledBefore s
    (r.2, { st with nB := st.nB + 1, fB := st.fB + if r.1 then 1 else 0 })
  | .ret =>
    let r := sampledAfter s
    (r.2, { st with nA := st.nA + 1, fA := st.fA + if r.1 then 1 else 0 })

def sampledRun (s : sampledFunctionListener) (st : SampleStats) :
    List SEv → sampledFunctionListener × SampleStats
  | [] => (s, st)
  | e :: es => sampledRun (sampledStep s st e).1 (sampledStep s st e).2 es

/-- The event sequence is well-nested when starting at call depth `d`
(no `ret` without an outstanding `call`; the runtime guarantees this). -/
def nestedFrom (d : Nat) : List SEv → Bool
  | [] => true
  | SEv.call :: es => nestedFrom (d + 1) es
  | SEv.ret :: es => decide (0 < d) && nestedFrom (d - 1) es

/-- Call depth after processing the events, starting from depth `d`. -/
def depthAfter (d : Nat) : List SEv → Nat
  | [] => d
  | SEv.call :: es => depthAfter (d + 1) es
  | SEv.ret :: es => depthAfter (d - 1) es

theorem succ_mod_cases (n c : Nat) (hc : 0 < c) :
    ((n % c = c - 1) → (n + 1) % c = 0 ∧ (n + 1) / c = n / c + 1) ∧
    ((n % c < c - 1) → (n + 1) % c = n % c + 1 ∧ (n + 1) / c = n / c) := by
  have hdm := Nat.div_add_mod n c
  constructor
  · intro h
    have he : n + 1 = c * (n / c + 1) := by
      rw [Nat.mul_add, Nat.mul_one]
      omega
    constructor
    · rw [he, Nat.mul_mod_right]
    · rw [he, Nat.mul_div_cancel_left _ hc]
  · intro h
    have he : n + 1 = c * (n / c) + (n % c + 1) := by omega
    have hlt : n % c + 1 < c := by omega
    constructor
    · rw [he, Nat.mul_add_mod, Nat.mod_eq_of_lt hlt]
    · rw [he, Nat.mul_add_div hc, Nat.div_eq_of_lt hlt, Nat.add_zero]

/-- The simulation invariant tying a sampled listener and its callback
statistics to the ghost list `bs` of pending accept/reject bits. -/
def sampledInv (cycle : Nat) (s : sampledFunctionListener) (st : SampleStats)
    (bs : List Bool) : Prop :=
  s.cycle = cycle ∧
  s.count = cycle - st.nB % cycle ∧
  reprStack bs s.stack ∧
  st.fB = st.nB / cycle ∧
  st.fA + bs.count true = st.fB ∧
  st.nA + bs.length = st.nB

theorem sampledInv_call (cycle : Nat) (s : sampledFunctionListener)
    (st : SampleStats) (bs : List Bool) (hc1 : 1 ≤ cycle) (hc2 : cycle < 2 ^ 32)
    (h : sampledInv cycle s st bs) :
    ∃ b, sampledInv cycle (sampledStep s st .call).1 (sampledStep s st .call).2
      (bs ++ [b]) := by
  obtain ⟨hcy, hcount, hrepr, hfb, hfa, hna⟩ := h
  have hmlt : st.nB % cycle < cycle := Nat.mod_lt _ hc1
  have hcb : 1 ≤ s.count ∧ s.count ≤ cycle := by omega
  have hdec : (s.count + (2 ^ 32 - 1)) % 2 ^ 32 = s.count - 1 := by omega
  have hsb : sampledBefore s =
      (if (s.count + (2 ^ 32 - 1)) % 2 ^ 32 = 0 then
        (true, { s with count := s.cycle, stack := s.stack.push 1 })
       else
        (false, { s with count := (s.count + (2 ^ 32 - 1)) % 2 ^ 32,
                         stack := s.stack.push 0 })) := rfl
  rw [hdec] at hsb
  have hstep : sampledStep s st .call =
      ((sampledBefore s).2,
       { st with nB := st.nB + 1,
                 fB := st.fB + if (sampledBefore s).1 then 1 else 0 }) := rfl
  rw [hsb] at hstep
  by_cases hz : s.count - 1 = 0
  · rw [if_pos hz] at hstep
    refine ⟨true, ?_⟩
    rw [hstep]
    have hmod : st.nB % cycle = cycle - 1 := by omega
    obtain ⟨hm1, hd1⟩ := (succ_mod_cases st.nB cycle hc1).1 hmod
    refine ⟨hcy, ?_, ?_, ?_, ?_, ?_⟩
    · show s.cycle = cycle - (st.nB + 1) % cycle
      rw [hm1, hcy, Nat.sub_zero]
    · exact reprStack_push bs s.stack true hrepr
    · show st.fB + 1 = (st.nB + 1) / cycle
      rw [hd1, ← hfb]
    · show st.fA + (bs ++ [true]).count true = st.fB + 1
      rw [List.count_append]
      have h1 : ([true] : List Bool).count true = 1 := by decide
      omega
    · show st.nA + (bs ++ [true]).length = st.nB + 1
      rw [List.length_append, List.length_singleton]
      omega
  · rw [if_neg hz] at hstep
    refine ⟨false, ?_⟩
    rw [hstep]
    have hmod : st.nB % cycle < cycle - 1 := by omega
    obtain ⟨hm1, hd1⟩ := (succ_mod_cases st.nB cycle hc1).2 hmod
    refine ⟨hcy, ?_, ?_, ?_, ?_, ?_⟩
    · show s.count - 1 = cycle - (st.nB + 1) % cycle
      rw [hm1]
      omega
    · exact reprStack_push bs s.stack false hrepr
    · show st.fB + 0 = (st.nB + 1) / cycle
      rw [hd1, ← hfb]
      omega
    · show st.fA + (bs ++ [false]).count true = st.fB + 0
      rw [List.count_append]
      have h1 : ([false] : List Bool).count true = 0 := by decide
      omega
    · show st.nA + (bs ++ [false]).length = st.nB + 1
      rw [List.length_append, List.length_singleton]
      omega

theorem sampledInv_ret (cycle : Nat) (s : sampledFunctionListener)
    (st : SampleStats) (bs0 : List Bool) (b : Bool)
    (h : sampledInv cycle s st (bs0 ++ [b])) :
    sampledInv cycle (sampledStep s st .ret).1 (sampledStep s st .ret).2 bs0 := by
  obtain ⟨hcy, hcount, hrepr, hfb, hfa, hna⟩ := h
  obtain ⟨hpop, hrepr'⟩ := reprStack_pop bs0 s.stack b hrepr
  have hstep : sampledStep s st .ret =
      ({ s with stack := (s.stack.pop).2 },
       { st with nA := st.nA + 1,
                 fA := st.fA + if (s.stack.pop).1 != 0 then 1 else 0 }) := rfl
  rw [hpop] at hstep
  rw [hstep]
  refine ⟨hcy, hcount, hrepr', hfb, ?_, ?_⟩
  · rw [List.count_append] at hfa
    cases b
    · show st.fA + 0 + bs0.count true = st.fB
      have h1 : ([false] : List Bool).count true = 0 := by decide
      omega
    · show st.fA + 1 + bs0.count true = st.fB
      have h1 : ([true] : List Bool).count true = 1 := by decide
      omega
  · show st.nA + 1 + bs0.length = st.nB
    rw [List.length_append, List.length_singleton] at hna
    omega

set_option maxRecDepth 4000 in
theorem sampledRun_inv :
    ∀ (evs : List SEv) (s : sampledFunctionListener) (st : SampleStats)
      (bs : List Bool) (cycle : Nat),
      1 ≤ cycle → cycle < 2 ^ 32 →
      sampledInv cycle s st bs →
      nestedFrom bs.length evs = true →
      ∃ bs', sampledInv cycle (sampledRun s st evs).1 (sampledRun s st evs).2 bs' ∧
        bs'.length = depthAfter bs.length evs := by
  intro evs
  induction evs with
  | nil =>
    intro s st bs cycle _ _ h _
    exact ⟨bs, h, rfl⟩
  | cons e es ih =>
    intro s st bs cycle hc1 hc2 h hnest
    cases e with
    | call =>
      rw [nestedFrom] at hnest
      obtain ⟨b, hinv⟩ := sampledInv_call cycle s st bs hc1 hc2 h
      rw [sampledRun]
      have hdep : depthAfter bs.length (SEv.call :: es) =
          depthAfter (bs ++ [b]).length es := by
        rw [depthAfter, List.length_append, List.length_singleton]
      rw [hdep]
      exact ih _ _ (bs ++ [b]) cycle hc1 hc2 hinv
        (by rw [List.length_append, List.length_singleton]; exact hnest)
    | ret =>
      rw [nestedFrom, Bool.and_eq_true, decide_eq_true_eq] at hnest
      obtain ⟨hpos, hnest'⟩ := hnest
      rcases List.eq_nil_or_concat bs with hbs | ⟨bs0, b, hbs⟩
      · rw [hbs] at hpos
        simp at hpos
      · rw [List.concat_eq_append] at hbs
        subst hbs
        have hinv := sampledInv_ret cycle s st bs0 b h
        rw [sampledRun]
        have hdep : depthAfter (bs0 ++ [b]).length (SEv.ret :: es) =
            depthAfter bs0.length es := by
          rw [depthAfter, List.length_append, List.length_singleton]
          congr 1
        rw [hdep]
        refine ih _ _ bs0 cycle hc1 hc2 hinv ?_
        rw [List.length_append, List.length_singleton] at hnest'
        simpa using hnest'

/-- Counterexample to C2 as stated: with rate 1/2 the cycle is
`⌈1/rate⌉ = 2`, and after N = 1 `Before` calls the inner listener has been
invoked 0 times, not `⌈N / 2⌉ = 1` — the counter starts at `cycle`, so the
first forward happens on the cycle-th call. -/
theorem c2_counterexample_ceil_formula :
    (sampledRun (newSampledListener 2) ⟨0, 0, 0, 0⟩ [SEv.call]).2.fB = 0 ∧
      (1 + 2 - 1) / 2 = 1 := by
  decide

/-- C2 amended: for a sampled listener with `cycle = ⌈1/rate⌉`, after any
well-nested sequence of callbacks containing N `Before` calls the inner
listener's `Before` has been invoked exactly `⌊N / cycle⌋` times (not
`⌈N / cycle⌉`), and when every call has returned, exactly one `After`/`Abort`
was forwarded per forwarded `Before` (the popped bit matches the pushed
one). -/
theorem c2_sampler_forwarding (cycle : Nat) (evs : List SEv)
    (h1 : 1 ≤ cycle) (h2 : cycle < 2 ^ 32)
    (hnest : nestedFrom 0 evs = true) :
    (sampledRun (newSampledListener cycle) ⟨0, 0, 0, 0⟩ evs).2.fB =
      (sampledRun (newSampledListener cycle) ⟨0, 0, 0, 0⟩ evs).2.nB / cycle ∧
    (depthAfter 0 evs = 0 →
      (sampledRun (newSampledListener cycle) ⟨0, 0, 0, 0⟩ evs).2.fA =
        (sampledRun (newSampledListener cycle) ⟨0, 0, 0, 0⟩ evs).2.nA / cycle ∧
      (sampledRun (newSampledListener cycle) ⟨0, 0, 0, 0⟩ evs).2.fA =
        (sampledRun (newSampledListener cycle) ⟨0, 0, 0, 0⟩ evs).2.fB ∧
      (sampledRun (newSampledListener cycle) ⟨0, 0, 0, 0⟩ evs).2.nA =
        (sampledRun (newSampledListener cycle) ⟨0, 0, 0, 0⟩ evs).2.nB) := by
  have hinit : sampledInv cycle (newSampledListener cycle) ⟨0, 0, 0, 0⟩ [] := by
    refine ⟨rfl, ?_, ⟨rfl, ?_⟩, ?_, ?_, rfl⟩
    · show cycle = cycle - 0 % cycle
      rw [Nat.zero_mod, Nat.sub_zero]
    · intro j hj
      simp at hj
    · exact (Nat.zero_div _).symm
    · rfl
  obtain ⟨bs', ⟨hcy, hcount, hrepr, hfb, hfa, hna⟩, hdepth⟩ :=
    sampledRun_inv evs (newSampledListener cycle) ⟨0, 0, 0, 0⟩ [] cycle h1 h2
      hinit hnest
  refine ⟨hfb, ?_⟩
  intro hdone
  have hlen : bs'.length = 0 := by rw [hdepth]; exact hdone
  have hnil : bs' = [] := List.length_eq_zero.mp hlen
  subst hnil
  simp only [List.count_nil, Nat.add_zero, List.length_nil] at hfa hna
  refine ⟨?_, hfa, hna⟩
  rw [hfa, hna]
  exact hfb

/-- Witness for the amended C2: scenario S6 flattened — 20 calls at rate
0.1 (`cycle = 10`), each paired with its return: 2 forwarded `Before`s and
2 forwarded `After`s. -/
theorem c2_sampler_forwarding_witness :
    (sampledRun (newSampledListener 10) ⟨0, 0, 0, 0⟩
        (List.flatten (List.replicate 20 [SEv.call, SEv.ret]))).2.fB =
      (sampledRun (newSampledListener 10) ⟨0, 0, 0, 0⟩
        (List.flatten (List.replicate 20 [SEv.call, SEv.ret]))).2.nB / 10 ∧
    (depthAfter 0 (List.flatten (List.replicate 20 [SEv.call, SEv.ret])) = 0 →
      (sampledRun (newSampledListener 10) ⟨0, 0, 0, 0⟩
          (List.flatten (List.replicate 20 [SEv.call, SEv.ret]))).2.fA =
        (sampledRun (newSampledListener 10) ⟨0, 0, 0, 0⟩
          (List.flatten (List.replicate 20 [SEv.call, SEv.ret]))).2.nA / 10 ∧
      (sampledRun (newSampledListener 10) ⟨0, 0, 0, 0⟩
          (List.flatten (List.replicate 20 [SEv.call, SEv.ret]))).2.fA =
        (sampledRun (newSampledListener 10) ⟨0, 0, 0, 0⟩
          (List.flatten (List.replicate 20 [SEv.call, SEv.ret]))).2.fB ∧
      (sampledRun (newSampledListener 10) ⟨0, 0, 0, 0⟩
          (List.flatten (List.replicate 20 [SEv.call, SEv.ret]))).2.nA =
        (sampledRun (newSampledListener 10) ⟨0, 0, 0, 0⟩
          (List.flatten (List.replicate 20 [SEv.call, SEv.ret]))).2.nB) :=
  c2_sampler_forwarding 10 (List.flatten (List.replicate 20 [SEv.call, SEv.ret]))
    (by norm_num) (by norm_num) (by decide)

/-! ## Go moduledata search (pclntab.go: `findStartOfModuleData`,
used by `moduledataAddrFromData`)

The search scans a data-section byte string for a 32-byte needle layout:
the 16 bytes of [pclntab-addr | funcnametab-addr] at the candidate offset,
the cutab address at relative offset 32 and the filetab address at relative
offset 56. -/

/-- Go `bytes.Index`: index of the first occurrence of `needle` in `hay`,
-1 when absent (0 for an empty needle). -/
def bytesIndex (hay needle : List Nat) : Int :=
  match (List.range (hay.length + 1)).find?
      (fun p => needle.isPrefixOf (hay.drop p)) with
  | some p => Int.ofNat p
  | none => -1

/-- Go slice `b[i : i+n]` (all uses below stay in bounds, where Go would
otherwise panic). -/
def sliceBytes (b : List Nat) (i n : Nat) : List Nat :=
  (b.drop i).take n

/-- `findStartOfModuleData`, embedded as written: the `startIndex < -1`
test (Go `bytes.Index` never returns below -1, so the not-found case falls
through), and the equality checks and loop update use `startIndex` — an
index relative to `b[begin:]` — to address `b` absolutely.  The Go loop
does not terminate on every input, so the model takes fuel; `none` only
means the fuel ran out. -/
def findStartOfModuleData :
    Nat → List Nat → List Nat → List Nat → List Nat → Int → Option Int
  | 0, _, _, _, _, _ => none
  | fuel + 1, b, start, cutabaddr, filetabaddr, begin_ =>
    if begin_ < (b.length : Int) then
      let startIndex := bytesIndex (b.drop begin_.toNat) start
      if startIndex < -1 then some (-1)
      else if sliceBytes b (startIndex + 32).toNat 8 ≠ cutabaddr then
        findStartOfModuleData fuel b start cutabaddr filetabaddr (startIndex + 1)
      else if sliceBytes b (startIndex + 56).toNat 8 ≠ filetabaddr then
        findStartOfModuleData fuel b start cutabaddr filetabaddr (startIndex + 1)
      else some (begin_ + startIndex)
    else some (-1)

/-- The 16-byte needle [pclntab-addr | funcnametab-addr] of the failing
input. -/
def mdNeedle : List Nat := List.replicate 16 1

/-- The 8-byte cutab address of the failing input. -/
def mdCutab : List Nat := List.replicate 8 2

/-- The 8-byte filetab address of the failing input. -/
def mdFiletab : List Nat := List.replicate 8 3

/-- A 128-byte data section: a first needle match at offset 0 whose
validation fails, and a second needle match at offset 64 whose cutab and
filetab bytes sit at the *misaligned* relative offsets 31 and 55. -/
def mdBytes : List Nat :=
  List.replicate 16 1 ++ List.replicate 48 0 ++ List.replicate 16 1 ++
    List.replicate 15 0 ++ List.replicate 8 2 ++ List.replicate 16 0 ++
    List.replicate 8 3 ++ [0]

set_option maxRecDepth 100000 in
/-- C4: the moduledata search returns offset 64 on `mdBytes` although the
candidate at 64 carries neither the cutab address at relative offset 32 nor
the filetab address at relative offset 56 — after the first candidate is
rejected, `begin` becomes 1 and the validation reads `b[startIndex+32]` and
`b[startIndex+56]` with the match actually at `begin+startIndex`, so it
validates one byte short of the returned offset. -/
theorem c4_moduledata_search_accepts_misaligned :
    findStartOfModuleData 8 mdBytes mdNeedle mdCutab mdFiletab 0 = some 64 ∧
      sliceBytes mdBytes 64 16 = mdNeedle ∧
      sliceBytes mdBytes (64 + 32) 8 ≠ mdCutab ∧
      sliceBytes mdBytes (64 + 56) 8 ≠ mdFiletab := by
  decide

end Wzprof
